import Mathlib

/-!
Verification development for the gocarina OCR package (Go).

The development shallowly embeds the two subsystems the claims are about:

* the image pipeline of `image.go` / `bw_image.go` / the `Tile.reduce`
  method of `tile.go`: rectangles (`image.Rectangle` with the canonicalising
  `image.Rect` constructor), binarised images (modelled by their black mask,
  i.e. the predicate `IsBlack (img.At x y)` after the two-colour palette
  conversion of `bw_image.go`), `BoundingBox`, the nearest-neighbour `Scale`,
  and the bounding-box gate of `Tile.reduce`;

* the neural-network engine of `network.go`: the `Network` struct and the
  functions `NewNetwork`, `assignInputs`, `calculateHiddenOutputs`,
  `calculateFinalOutputs`, `calculateOutputErrors`, `calculateHiddenErrors`,
  `adjustOutputWeights`, `adjustInputWeights`, `Train`, `Recognize`,
  `runeToArrayOfInts`, `round`, and the gob-based `Save`/`RestoreNetwork`.

Numeric conventions of the embedding:

* `float64` scalars of the network are embedded as an arbitrary field `α`
  and the transcendental `sigmoid` as an abstract activation `σ : α → α`;
  the claims about the engine are structural (which entries are read and
  written, in which order) or conditional on the range of `σ`, so they hold
  for the exact arithmetic of any field.  `log.Fatalf` and runtime panics
  are modelled by `Option` results (`none` = abnormal termination).

* where a claim is about IEEE-754 `float64` rounding itself (the `Scale`
  index arithmetic), binary64 round-to-nearest-even is modelled exactly on
  integers (`Float64.ofRatParts` below); the exponent range of binary64 is
  not modelled since every value appearing in those computations is normal.
-/

namespace Gocarina

/-! ## Generic list helpers -/

/-- Writing the first `k` entries of a Go slice inside a `for i := 0; i < k`
loop: entry `i < k` becomes `f i`, entries past `k` are kept.  (In Go, `k`
never exceeds the slice length at the call sites that are in scope of a
theorem below; the corresponding panic is therefore not modelled here.) -/
def writeN {α : Type} (l : List α) (k : ℕ) (f : ℕ → α) : List α :=
  ((List.range k).map f) ++ l.drop k

theorem getD_writeN {α : Type} (l : List α) (k : ℕ) (f : ℕ → α) (j : ℕ) (d : α) :
    (writeN l k f).getD j d = if j < k then f j else l.getD j d := by
  unfold writeN
  rcases lt_or_le j k with hj | hj
  · rw [if_pos hj]
    rw [List.getD_eq_getElem?_getD, List.getElem?_append_left (by simpa using hj)]
    simp [hj]
  · rw [if_neg (by omega), List.getD_eq_getElem?_getD,
      List.getElem?_append_right (by simpa using hj), List.getElem?_drop,
      List.getD_eq_getElem?_getD]
    simp only [List.length_map, List.length_range]
    congr 2
    omega

theorem length_writeN_self {α : Type} (l : List α) (f : ℕ → α) :
    (writeN l l.length f).length = l.length := by
  simp [writeN]

/-- Integer range `[lo, hi)`, the index set of a Go loop
`for x := lo; x < hi; x++`. -/
def intRange (lo hi : ℤ) : List ℤ :=
  (List.range (hi - lo).toNat).map (fun i => lo + (i : ℤ))

/-! ## Rectangles and black-and-white images

`image.Rectangle` with the constructor `image.Rect`, which swaps the two
coordinates of an axis when they are given in the wrong order.  An image is
modelled by its bounds together with its black mask: `black x y = true` iff
`IsBlack` holds of the pixel's colour after the two-colour palette
conversion of `bw_image.go` (`IsBlack` tests exact equality with
`color.Black`, and the palette produced by `BlackWhiteImage` maps every
colour to `color.Black` or `color.White`). -/

structure GoRect where
  minX : ℤ
  minY : ℤ
  maxX : ℤ
  maxY : ℤ
deriving DecidableEq, Repr

/-- Model of `image.Rect(x0, y0, x1, y1)` including its canonicalising
swaps. -/
def mkRect (x0 y0 x1 y1 : ℤ) : GoRect :=
  let p := if x1 < x0 then (x1, x0) else (x0, x1)
  let q := if y1 < y0 then (y1, y0) else (y0, y1)
  ⟨p.1, q.1, p.2, q.2⟩

def GoRect.dx (r : GoRect) : ℤ := r.maxX - r.minX

def GoRect.dy (r : GoRect) : ℤ := r.maxY - r.minY

/-- A binarised image: rectangular bounds plus the black mask. -/
structure Img where
  bounds : GoRect
  black : ℤ → ℤ → Bool

/-- Model of `BoundingBox(src, border)` from `image.go`: four edge scans.
Each scan walks its axis from one side and returns the first coordinate
whose cross-section contains a black pixel, adjusted by `border`; the
fallbacks when no black pixel exists are exactly the source's (`leftX`
falls back to `min.X`, `rightX` to `max.X`, and both `topY` and `bottomY`
fall back to `max.Y`), and the result adds `+1` to the right and bottom
coordinates, as in the source's `image.Rect(leftX(), topY(), rightX()+1,
bottomY()+1)`. -/
def BoundingBox (src : Img) (border : ℤ) : GoRect :=
  let xs := intRange src.bounds.minX src.bounds.maxX
  let ys := intRange src.bounds.minY src.bounds.maxY
  let colHasBlack := fun x => ys.any (fun y => src.black x y)
  let rowHasBlack := fun y => xs.any (fun x => src.black x y)
  let leftX :=
    match xs.find? colHasBlack with
    | some x => x - border
    | none => src.bounds.minX
  let rightX :=
    match xs.reverse.find? colHasBlack with
    | some x => x + border
    | none => src.bounds.maxX
  let topY :=
    match ys.find? rowHasBlack with
    | some y => y - border
    | none => src.bounds.maxY
  let bottomY :=
    match ys.reverse.find? rowHasBlack with
    | some y => y + border
    | none => src.bounds.maxY
  mkRect leftX topY (rightX + 1) (bottomY + 1)

/-! ## The bounding-box gate of `Tile.reduce`

`reduce` applies the bounding box only when `bbox.Bounds().Dx() >=
int(MinBoundingBoxPercent*float64(t.img.Bounds().Dx()))` and likewise for
the height.  `float64(dx)` is exact for the dimensions in scope and
multiplying by `0.25` only shifts the exponent, so the `float64` product is
the exact rational `dx/4`; the conversion `int(·)` truncates toward zero.
Exact rational arithmetic is therefore a faithful model of this test. -/

/-- Source constant `MinBoundingBoxPercent = 0.25`. -/
def MinBoundingBoxPercent : ℚ := 1/4

/-- Go's `int(·)` conversion of a `float64`: truncation toward zero. -/
def goTrunc (q : ℚ) : ℤ := if 0 ≤ q then ⌊q⌋ else ⌈q⌉

/-- The crop gate of `Tile.reduce(border)`: the bounding box of the
binarised tile is applied iff both its width and height reach the truncated
thresholds.  (`BlackWhiteImage` leaves the black mask unchanged, so
`BoundingBox` is applied to the same mask, and `t.img.Bounds()` equals the
converted image's bounds.) -/
def ReduceCrops (img : Img) (border : ℤ) : Prop :=
  goTrunc (MinBoundingBoxPercent * (img.bounds.dx : ℚ)) ≤ (BoundingBox img border).dx ∧
  goTrunc (MinBoundingBoxPercent * (img.bounds.dy : ℚ)) ≤ (BoundingBox img border).dy

/-! ## Exact binary64 arithmetic for `Scale`

`Scale` computes, for each destination pixel, `srcX :=
int(math.Floor(float64(x)/float64(db.Dx()) * float64(sb.Dx())))` (and the
same for `y`).  All values in these expressions are nonnegative and well
inside the normal range of binary64, so the computation is modelled exactly:
a `float64` value is a mantissa–exponent pair `m * 2^e`, and each operation
rounds to 53 significant bits with round-to-nearest, ties-to-even. -/

/-- Number of binary digits of `n` (`0` for `n = 0`), by fuel recursion
(the first argument is fuel, always sufficient when it starts at `n`). -/
def bitsLenGo : ℕ → ℕ → ℕ
  | 0, _ => 0
  | _ + 1, 0 => 0
  | f + 1, n + 1 => bitsLenGo f ((n + 1) / 2) + 1

def bitsLen (n : ℕ) : ℕ := bitsLenGo n n

/-- Round-to-nearest, ties-to-even of the quotient `a / b` (`b ≠ 0`). -/
def roundHalfEvenDiv (a b : ℕ) : ℕ :=
  let n := a / b
  let r := a % b
  if 2 * r < b then n
  else if b < 2 * r then n + 1
  else if n % 2 = 0 then n else n + 1

/-- Decides `p / q < 2 ^ c` by cross-multiplication. -/
def ltPow2 (p q : ℕ) (c : ℤ) : Bool :=
  if 0 ≤ c then p < q * 2 ^ c.toNat else p * 2 ^ (-c).toNat < q

/-- A nonnegative binary64 value `m * 2^e`.  Sign, infinities and the
exponent range are not modelled: every value reached by the `Scale`
computations in scope is nonnegative and normal. -/
structure Float64 where
  m : ℕ
  e : ℤ
deriving DecidableEq, Repr

/-- The binary64 nearest-even rounding of the rational `p / q`: the unique
exponent `e` with `2^e ≤ p/q < 2^(e+1)` is located via `bitsLen`, and the
mantissa `p/q * 2^(52-e)` (a value in `[2^52, 2^53)`) is rounded to an
integer with ties to even.  A carry to `2^53` needs no renormalisation
since the value `m * 2^e'` is kept exactly. -/
def Float64.ofRatParts (p q : ℕ) : Float64 :=
  if p = 0 ∨ q = 0 then ⟨0, 0⟩
  else
    let c : ℤ := (bitsLen p : ℤ) - (bitsLen q : ℤ)
    let e : ℤ := if ltPow2 p q c then c - 1 else c
    let k : ℤ := 52 - e
    let a := p * 2 ^ k.toNat
    let b := q * 2 ^ (-k).toNat
    ⟨roundHalfEvenDiv a b, e - 52⟩

/-- Rounds the exact dyadic value `M * 2^E` to binary64. -/
def Float64.ofDyadic (M : ℕ) (E : ℤ) : Float64 :=
  let f := Float64.ofRatParts M 1
  ⟨f.m, f.e + E⟩

/-- Go's `float64(n)` conversion of a nonnegative integer (exact below
`2^53`, correctly rounded above). -/
def Float64.ofNat (n : ℕ) : Float64 := Float64.ofRatParts n 1

/-- Correctly rounded `float64` product. -/
def Float64.mulF (x y : Float64) : Float64 := Float64.ofDyadic (x.m * y.m) (x.e + y.e)

/-- Correctly rounded `float64` quotient (`y ≠ 0`; rounding the mantissa
quotient and shifting by the exponent difference is exact because scaling
by powers of two commutes with rounding). -/
def Float64.divF (x y : Float64) : Float64 :=
  let f := Float64.ofRatParts x.m y.m
  ⟨f.m, f.e + (x.e - y.e)⟩

/-- The composite `math.Floor` + `int(·)` applied to a nonnegative value. -/
def Float64.floorNat (x : Float64) : ℕ :=
  if 0 ≤ x.e then x.m * 2 ^ x.e.toNat else x.m / 2 ^ (-x.e).toNat

/-- The source-pixel index computed by `Scale` for destination coordinate
`x`, destination dimension `dstD` and source dimension `srcD`:
`int(math.Floor(float64(x)/float64(dstD) * float64(srcD)))`. -/
def scaleSrcIndex (x dstD srcD : ℕ) : ℕ :=
  Float64.floorNat (Float64.mulF (Float64.divF (Float64.ofNat x) (Float64.ofNat dstD)) (Float64.ofNat srcD))

/-- An image with colours, for `Scale`: colours are encoded as natural
numbers, `0` standing for the zero value of a freshly allocated
`image.NewRGBA` pixel. -/
structure ImgC where
  bounds : GoRect
  colorAt : ℤ → ℤ → ℕ

/-- Model of `Scale(src, image.Rect(0, 0, w, h))`.  The package only calls
`Scale` with target rectangles anchored at the origin (`targetRect` in
`Tile.reduce`), and the claim quantifies over such rectangles; destination
coordinates are then nonnegative, which is the domain on which the unsigned
`Float64` model applies.  Destination pixels outside the target rectangle
keep the `NewRGBA` zero value. -/
def Scale (src : ImgC) (w h : ℕ) : ImgC where
  bounds := mkRect 0 0 w h
  colorAt := fun x y =>
    if 0 ≤ x ∧ x < (w : ℤ) ∧ 0 ≤ y ∧ y < (h : ℤ) then
      src.colorAt (src.bounds.minX + (scaleSrcIndex x.toNat w src.bounds.dx.toNat : ℤ))
        (src.bounds.minY + (scaleSrcIndex y.toNat h src.bounds.dy.toNat : ℤ))
    else 0

/-! ## The network engine of `network.go`

The `float64` scalars of the engine are embedded as an arbitrary field `α`
(`rand.Float64` draws become an explicit stream `rnd : ℕ → α`, and the
transcendental `sigmoid` an abstract activation `σ : α → α`).  `log.Fatalf`
and the index-out-of-range panic of `runeToArrayOfInts` are modelled by
`Option` (`none` = abnormal termination).  Go slice reads are total here
(`getD` with default `0`); at every call site covered by a theorem below
the access is in bounds, as established by the shape facts carried by the
theorem. -/

/-- Source constant `NumOutputs = 8`. -/
def NumOutputs : ℕ := 8

/-- Source constant `TileTargetWidth = 12`. -/
def TileTargetWidth : ℕ := 12

/-- Source constant `TileTargetHeight = 12`. -/
def TileTargetHeight : ℕ := 12

/-- The `Network` struct.  `InputValues` holds the `uint8` image bits;
`tileWidth`/`tileHeight` are the two unexported fields. -/
structure Network (α : Type) where
  NumInputs : ℕ
  NumOutputs : ℕ
  HiddenCount : ℕ
  InputValues : List ℕ
  InputWeights : List (List α)
  HiddenOutputs : List α
  OutputWeights : List (List α)
  OutputValues : List α
  OutputErrors : List α
  HiddenErrors : List α
  tileWidth : ℤ
  tileHeight : ℤ
deriving DecidableEq

variable {α : Type} [Field α]

/-- Matrix entry `m[i][j]` (in bounds at every use covered by a theorem). -/
def mat2 (m : List (List α)) (i j : ℕ) : α := (m.getD i []).getD j 0

/-- A Go accumulation loop `sum := 0; for j := 0; j < k; j++ { sum += f j }`. -/
def sumRange (k : ℕ) (f : ℕ → α) : α := (List.range k).foldl (fun s j => s + f j) 0

/-- Base-`b` digits of `n`, most significant first (`[0]` for `n = 0`), by
fuel recursion with fuel `n` (always sufficient since `n` at least halves
every step for the bases `2` and `10` in use). -/
def digitsGo (b : ℕ) : ℕ → ℕ → List ℕ → List ℕ
  | 0, _, acc => acc
  | _ + 1, 0, acc => acc
  | f + 1, n + 1, acc => digitsGo b f ((n + 1) / b) (((n + 1) % b) :: acc)

def natDigits (b n : ℕ) : List ℕ := if n = 0 then [0] else digitsGo b n n []

/-- Model of `Network.runeToArrayOfInts(r)` for a nonnegative code point
(every character of a Go string has one).  `fmt.Sprintf("%0*b", numOut,
codePoint)` zero-pads the binary digits to a *minimum* width of `numOut`
and never truncates; the copy loop then writes `result[i]` for every
position `i` of that string into the slice `make([]int, numOut)`, so a
string longer than `numOut` panics with an index out of range (`none`). -/
def runeToArrayOfInts (numOut cp : ℕ) : Option (List ℕ) :=
  let s := List.replicate (numOut - (natDigits 2 cp).length) 0 ++ natDigits 2 cp
  if s.length ≤ numOut then some s else none

/-- Model of `NewNetwork(w, h)`.  The source allocates
`HiddenOutputs = make([]float64, n.NumOutputs)` — the `NumOutputs`-sized
allocation is the source's, not a simplification.  `assignRandomWeights`
consumes the `rand.Float64()` stream `rnd` row-major, first the
input-to-hidden then the hidden-to-output matrix, scaling each draw by the
product of the two layer sizes (the `float64` rounding of that division is
absorbed into the arbitrariness of the stream). -/
def NewNetwork (w h : ℕ) (rnd : ℕ → α) : Network α :=
  let numInputs := w * h
  let hiddenCount := numInputs + NumOutputs
  { NumInputs := numInputs
    NumOutputs := NumOutputs
    HiddenCount := hiddenCount
    InputValues := List.replicate numInputs 0
    InputWeights := (List.range numInputs).map (fun i =>
      (List.range hiddenCount).map (fun j =>
        rnd (i * hiddenCount + j) / ((numInputs : α) * (hiddenCount : α))))
    HiddenOutputs := List.replicate NumOutputs 0
    OutputWeights := (List.range hiddenCount).map (fun i =>
      (List.range NumOutputs).map (fun j =>
        rnd (numInputs * hiddenCount + i * NumOutputs + j) / ((hiddenCount : α) * (NumOutputs : α))))
    OutputValues := List.replicate NumOutputs 0
    OutputErrors := List.replicate NumOutputs 0
    HiddenErrors := List.replicate hiddenCount 0
    tileWidth := w
    tileHeight := h }

/-- Source `pixelToBit`: `0` for a black pixel, `1` otherwise. -/
def pixelToBit (isBlackPix : Bool) : ℕ := if isBlackPix then 0 else 1

/-- Model of `Network.assignInputs(img)`: `log.Fatalf` when the image is
wider or taller than the tile dimensions, then a row-major read of
`tileHeight × tileWidth` pixels starting at the image's `Min` corner
(writing past `len(InputValues)` would panic), then `log.Fatalf` when the
number of pixels read differs from `NumInputs`. -/
def assignInputs (n : Network α) (img : Img) : Option (Network α) :=
  if img.bounds.dx > n.tileWidth ∨ img.bounds.dy > n.tileHeight then none
  else
    let bits := ((List.range n.tileHeight.toNat).map (fun r =>
      (List.range n.tileWidth.toNat).map (fun c =>
        pixelToBit (img.black (img.bounds.minX + (c : ℤ)) (img.bounds.minY + (r : ℤ)))))).flatten
    if n.InputValues.length < bits.length then none
    else if bits.length ≠ n.NumInputs then none
    else some { n with InputValues := bits ++ n.InputValues.drop bits.length }

/-- Model of `calculateHiddenOutputs`: the loop runs for
`i < len(n.HiddenOutputs)` and sets
`HiddenOutputs[i] = sigmoid(Σ_j InputValues[j] * InputWeights[j][i])`. -/
def calculateHiddenOutputs (σ : α → α) (n : Network α) : Network α :=
  { n with HiddenOutputs := writeN n.HiddenOutputs n.HiddenOutputs.length (fun i =>
      σ (sumRange n.InputValues.length (fun j =>
        ((n.InputValues.getD j 0 : ℕ) : α) * mat2 n.InputWeights j i))) }

/-- Model of `calculateFinalOutputs`: for `i < n.NumOutputs`,
`OutputValues[i] = sigmoid(Σ_j HiddenOutputs[j] * OutputWeights[j][i])`
with `j` ranging over `len(n.HiddenOutputs)`. -/
def calculateFinalOutputs (σ : α → α) (n : Network α) : Network α :=
  { n with OutputValues := writeN n.OutputValues n.NumOutputs (fun i =>
      σ (sumRange n.HiddenOutputs.length (fun j =>
        n.HiddenOutputs.getD j 0 * mat2 n.OutputWeights j i))) }

/-- Model of `calculateOutputErrors(r)`: encodes the target and sets
`OutputErrors[i] = (target[i] - OutputValues[i]) * (1 - OutputValues[i]) *
OutputValues[i]` for every index of the encoded array (the local
`accumError` is discarded by the source). -/
def calculateOutputErrors (n : Network α) (cp : ℕ) : Option (Network α) :=
  match runeToArrayOfInts n.NumOutputs cp with
  | none => none
  | some ds =>
      if n.OutputValues.length < ds.length ∨ n.OutputErrors.length < ds.length then none
      else some { n with OutputErrors := writeN n.OutputErrors ds.length (fun i =>
        (((ds.getD i 0 : ℕ) : α) - n.OutputValues.getD i 0) *
          (1 - n.OutputValues.getD i 0) * n.OutputValues.getD i 0) }

/-- Model of `calculateHiddenErrors`: the loop runs for
`i < len(n.HiddenOutputs)` and sets `HiddenErrors[i] = HiddenOutputs[i] *
(1 - HiddenOutputs[i]) * Σ_j OutputErrors[j] * OutputWeights[i][j]`. -/
def calculateHiddenErrors (n : Network α) : Network α :=
  { n with HiddenErrors := writeN n.HiddenErrors n.HiddenOutputs.length (fun i =>
      n.HiddenOutputs.getD i 0 * (1 - n.HiddenOutputs.getD i 0) *
        sumRange n.OutputErrors.length (fun j =>
          n.OutputErrors.getD j 0 * mat2 n.OutputWeights i j)) }

/-- Model of `adjustOutputWeights`: for `i < len(n.HiddenOutputs)` and
`j < n.NumOutputs`, `OutputWeights[i][j] += OutputErrors[j] *
HiddenOutputs[i]`. -/
def adjustOutputWeights (n : Network α) : Network α :=
  { n with OutputWeights := writeN n.OutputWeights n.HiddenOutputs.length (fun i =>
      writeN (n.OutputWeights.getD i []) n.NumOutputs (fun j =>
        mat2 n.OutputWeights i j + n.OutputErrors.getD j 0 * n.HiddenOutputs.getD i 0)) }

/-- Model of `adjustInputWeights`: for `i < n.NumInputs` and
`j < n.HiddenCount`, `InputWeights[i][j] += HiddenErrors[j] *
InputValues[i]`. -/
def adjustInputWeights (n : Network α) : Network α :=
  { n with InputWeights := writeN n.InputWeights n.NumInputs (fun i =>
      writeN (n.InputWeights.getD i []) n.HiddenCount (fun j =>
        mat2 n.InputWeights i j + n.HiddenErrors.getD j 0 * ((n.InputValues.getD i 0 : ℕ) : α))) }

/-- Model of `Network.Train(img, r)`: forward pass, then error
backpropagation, then the two weight updates, in the source's order. -/
def Train (σ : α → α) (n : Network α) (img : Img) (cp : ℕ) : Option (Network α) :=
  (assignInputs n img).bind fun n1 =>
    (calculateOutputErrors (calculateFinalOutputs σ (calculateHiddenOutputs σ n1)) cp).map
      fun n2 => adjustInputWeights (adjustOutputWeights (calculateHiddenErrors n2))

/-- A sequence of `Train` calls. -/
def TrainSeq (σ : α → α) : List (Img × ℕ) → Network α → Option (Network α)
  | [], n => some n
  | p :: ps, n => (Train σ n p.1 p.2).bind (TrainSeq σ ps)

/-- Model of `Save(path)` followed by `RestoreNetwork(path)`.
`encoding/gob` serialises only the exported fields of `Network`; the
unexported `tileWidth` and `tileHeight` are not written, so the decoded
`var result Network` keeps their Go zero value `0` while every exported
field round-trips. -/
def SaveThenRestore (n : Network α) : Network α := { n with tileWidth := 0, tileHeight := 0 }

/-! ## `Recognize` and its decoding pipeline -/

/-- Source `math.Copysign(x, f)` on rationals (`ℚ` has no negative zero;
the `f = 0` case is never reached under the guard in `round`). -/
def goCopysign (x f : ℚ) : ℚ := if f < 0 then -|x| else |x|

/-- Model of the source's `round(f)`: `0` for `|f| < 0.5`, otherwise
truncation of `f + math.Copysign(0.5, f)`.  The addition is exact here; for
the arguments `round` receives in `Recognize` (activation values in
`[0, 1]`) the `float64` rounding of that addition never moves the result
across an integer boundary, so exact arithmetic is faithful. -/
def goRound (f : ℚ) : ℤ := if |f| < 1/2 then 0 else goTrunc (f + goCopysign (1/2) f)

/-- Decimal digit to character, as in `strconv.Itoa`. -/
def digitChar (d : ℕ) : Char := Char.ofNat (48 + d)

/-- Model of `strconv.Itoa`. -/
def Itoa (z : ℤ) : List Char :=
  if z < 0 then '-' :: (natDigits 10 (-z).toNat).map digitChar
  else (natDigits 10 z.toNat).map digitChar

/-- Model of `strconv.ParseInt(s, 2, 16)`: an optional sign, then a
nonempty run of base-2 digits (any other character is a syntax error), and
a final range check against the signed 16-bit bounds (range errors are
errors; `err != nil` is all `Recognize` inspects, so every error is
`none`). -/
def ParseIntBase2Bits16 (s : List Char) : Option ℤ :=
  match s with
  | [] => none
  | c :: rest =>
      let digits := if c = '-' ∨ c = '+' then rest else s
      if digits.isEmpty then none
      else
        match digits.foldlM (fun (a : ℤ) d =>
            if d = '0' then some (2 * a) else if d = '1' then some (2 * a + 1) else none) 0 with
        | none => none
        | some v =>
            if c = '-' then (if 2 ^ 15 < v then none else some (-v))
            else (if 2 ^ 15 ≤ v then none else some v)

/-- The bit string built by `Recognize`: `bitstring += strconv.Itoa(round(v))`. -/
def bitstring (l : List ℤ) : List Char := l.foldl (fun s v => s ++ Itoa v) []

/-- The quantise-concatenate-parse step of `Recognize` applied to the
output activations. -/
def RecognizeOutputCode (ov : List ℚ) : Option ℤ :=
  ParseIntBase2Bits16 (bitstring (ov.map goRound))

/-- Model of `Network.Recognize(img)`: forward pass, then quantisation of
`OutputValues`, then `strconv.ParseInt(bitstring, 2, 16)`; `none` is the
`log.Fatalf` branch (either of `assignInputs` or of the parse failure). -/
def Recognize (σ : ℚ → ℚ) (n : Network ℚ) (img : Img) : Option ℤ :=
  (assignInputs n img).bind fun n1 =>
    RecognizeOutputCode (calculateFinalOutputs σ (calculateHiddenOutputs σ n1)).OutputValues

/-! ## Shape and frame lemmas for the training pipeline -/

theorem length_writeN {β : Type} (l : List β) (k : ℕ) (f : ℕ → β) :
    (writeN l k f).length = k + (l.length - k) := by
  simp [writeN]

theorem getD_replicate_zero {β : Type} [Zero β] (k j : ℕ) :
    (List.replicate k (0 : β)).getD j 0 = 0 := by
  rw [List.getD_eq_getElem?_getD, List.getElem?_replicate]
  split <;> simp

set_option linter.unusedSectionVars false in
/-- On success, `assignInputs` only writes `InputValues`. -/
theorem assignInputs_some {n m : Network α} {img : Img}
    (h : assignInputs n img = some m) :
    m.NumInputs = n.NumInputs ∧ m.NumOutputs = n.NumOutputs ∧
    m.HiddenCount = n.HiddenCount ∧ m.InputWeights = n.InputWeights ∧
    m.HiddenOutputs = n.HiddenOutputs ∧ m.OutputWeights = n.OutputWeights ∧
    m.OutputValues = n.OutputValues ∧ m.OutputErrors = n.OutputErrors ∧
    m.HiddenErrors = n.HiddenErrors ∧ m.tileWidth = n.tileWidth ∧
    m.tileHeight = n.tileHeight := by
  simp only [assignInputs] at h
  split at h
  · exact Option.noConfusion h
  · split at h
    · exact Option.noConfusion h
    · split at h
      · exact Option.noConfusion h
      · cases h
        exact ⟨rfl, rfl, rfl, rfl, rfl, rfl, rfl, rfl, rfl, rfl, rfl⟩

/-- On success, `calculateOutputErrors` only writes `OutputErrors`. -/
theorem calculateOutputErrors_some {n m : Network α} {cp : ℕ}
    (h : calculateOutputErrors n cp = some m) :
    m.NumInputs = n.NumInputs ∧ m.NumOutputs = n.NumOutputs ∧
    m.HiddenCount = n.HiddenCount ∧ m.InputValues = n.InputValues ∧
    m.InputWeights = n.InputWeights ∧ m.HiddenOutputs = n.HiddenOutputs ∧
    m.OutputWeights = n.OutputWeights ∧ m.OutputValues = n.OutputValues ∧
    m.HiddenErrors = n.HiddenErrors := by
  simp only [calculateOutputErrors] at h
  split at h
  · exact Option.noConfusion h
  · split at h
    · exact Option.noConfusion h
    · cases h
      exact ⟨rfl, rfl, rfl, rfl, rfl, rfl, rfl, rfl, rfl⟩

/-- The part of the network state that the claims C3 and C10 are about:
the `HiddenOutputs` buffer keeps its allocated length `NumOutputs`, the
`HiddenErrors` entries at indices `≥ NumOutputs` stay `0`, and the
`InputWeights` columns and `OutputWeights` rows at indices `≥ NumOutputs`
keep their values from `init`. -/
def TailInv (init n : Network α) : Prop :=
  n.HiddenOutputs.length = NumOutputs ∧
  (∀ j, NumOutputs ≤ j → n.HiddenErrors.getD j 0 = 0) ∧
  (∀ i j, NumOutputs ≤ j → mat2 n.InputWeights i j = mat2 init.InputWeights i j) ∧
  (∀ i, NumOutputs ≤ i → n.OutputWeights.getD i [] = init.OutputWeights.getD i [])

theorem tailInv_newNetwork (w h : ℕ) (rnd : ℕ → α) :
    TailInv (NewNetwork w h rnd) (NewNetwork w h rnd) := by
  refine ⟨by simp [NewNetwork], ?_, fun i j _ => rfl, fun i _ => rfl⟩
  intro j _
  simp only [NewNetwork]
  exact getD_replicate_zero _ _

/-- One `Train` call preserves `TailInv`: the forward pass writes only the
`len(HiddenOutputs) = NumOutputs` allocated hidden slots,
`calculateHiddenErrors` writes only indices below that length, and the two
weight updates therefore add `0 * InputValues[i]` to every input-weight
column `j ≥ NumOutputs` and never touch output-weight rows
`i ≥ NumOutputs`. -/
theorem tailInv_train {σ : α → α} {init n m : Network α} {img : Img} {cp : ℕ}
    (hI : TailInv init n) (h : Train σ n img cp = some m) : TailInv init m := by
  obtain ⟨hLen, hHE, hIW, hOW⟩ := hI
  unfold Train at h
  cases hA : assignInputs n img with
  | none => rw [hA] at h; exact Option.noConfusion h
  | some n1 =>
    rw [hA] at h
    have h2 : (calculateOutputErrors (calculateFinalOutputs σ (calculateHiddenOutputs σ n1)) cp).map
        (fun n2 => adjustInputWeights (adjustOutputWeights (calculateHiddenErrors n2))) = some m := h
    obtain ⟨e1, e2, e3, e4, e5, e6, e7, e8, e9, e10, e11⟩ := assignInputs_some hA
    cases hE : calculateOutputErrors (calculateFinalOutputs σ (calculateHiddenOutputs σ n1)) cp with
    | none => rw [hE] at h2; exact Option.noConfusion h2
    | some n3 =>
      rw [hE] at h2
      have h3 : some (adjustInputWeights (adjustOutputWeights (calculateHiddenErrors n3))) = some m := h2
      obtain ⟨f1, f2, f3, f4, f5, f6, f7, f8, f9⟩ := calculateOutputErrors_some hE
      cases h3
      -- facts about n3
      have hHO3 : n3.HiddenOutputs.length = NumOutputs := by
        rw [f6]
        simp only [calculateFinalOutputs, calculateHiddenOutputs]
        rw [length_writeN_self, e5, hLen]
      have hHE3 : ∀ j, NumOutputs ≤ j → n3.HiddenErrors.getD j 0 = 0 := by
        intro j hj
        rw [f9]
        simp only [calculateFinalOutputs, calculateHiddenOutputs]
        rw [e9]
        exact hHE j hj
      have hIW3 : n3.InputWeights = n.InputWeights := by
        rw [f5]; simp only [calculateFinalOutputs, calculateHiddenOutputs]; exact e4
      have hOW3 : n3.OutputWeights = n.OutputWeights := by
        rw [f7]; simp only [calculateFinalOutputs, calculateHiddenOutputs]; exact e6
      have hNI3 : n3.NumInputs = n.NumInputs := by
        rw [f1]; simp only [calculateFinalOutputs, calculateHiddenOutputs]; exact e1
      have hHC3 : n3.HiddenCount = n.HiddenCount := by
        rw [f3]; simp only [calculateFinalOutputs, calculateHiddenOutputs]; exact e3
      -- the state after calculateHiddenErrors
      have hHE4 : ∀ j, NumOutputs ≤ j → (calculateHiddenErrors n3).HiddenErrors.getD j 0 = 0 := by
        intro j hj
        simp only [calculateHiddenErrors]
        rw [getD_writeN, if_neg (by rw [hHO3]; omega)]
        exact hHE3 j hj
      refine ⟨?_, ?_, ?_, ?_⟩
      · -- HiddenOutputs length
        simp only [adjustInputWeights, adjustOutputWeights, calculateHiddenErrors]
        exact hHO3
      · -- HiddenErrors tail stays 0
        intro j hj
        simp only [adjustInputWeights, adjustOutputWeights]
        exact hHE4 j hj
      · -- InputWeights tail columns unchanged
        intro i j hj
        simp only [adjustInputWeights, adjustOutputWeights, calculateHiddenErrors, mat2]
        rw [getD_writeN]
        split
        · rw [getD_writeN]
          split
          · rw [getD_writeN, if_neg (by rw [hHO3]; omega), hHE3 j hj, zero_mul, add_zero, hIW3]
            exact hIW i j hj
          · rw [hIW3]
            exact hIW i j hj
        · rw [hIW3]
          exact hIW i j hj
      · -- OutputWeights tail rows unchanged
        intro i hi
        simp only [adjustInputWeights, adjustOutputWeights, calculateHiddenErrors]
        rw [getD_writeN, if_neg (by rw [hHO3]; omega), hOW3]
        exact hOW i hi

/-- `TailInv` is preserved by any sequence of `Train` calls. -/
theorem tailInv_trainSeq {σ : α → α} {init : Network α} :
    ∀ {ps : List (Img × ℕ)} {n m : Network α},
      TailInv init n → TrainSeq σ ps n = some m → TailInv init m := by
  intro ps
  induction ps with
  | nil =>
    intro n m hI h
    cases h
    exact hI
  | cons p t ih =>
    intro n m hI h
    unfold TrainSeq at h
    cases hT : Train σ n p.1 p.2 with
    | none => rw [hT] at h; exact Option.noConfusion h
    | some n' =>
      rw [hT] at h
      exact ih (tailInv_train hI hT) h

/-! ## Concrete fixtures used by the theorems below -/

/-- A constant `rand.Float64` stream. -/
def rndHalf : ℕ → ℚ := fun _ => 1/2

/-- A concrete activation (the claims below do not depend on the shape of
the activation). -/
def sigHalf : ℚ → ℚ := fun _ => 1/2

/-- `NewNetwork(1, 1)`: one input pixel, `HiddenCount = 1*1 + 8 = 9`. -/
def netOne : Network ℚ := NewNetwork 1 1 rndHalf

/-- A 1×1 all-white image (accepted by `netOne.assignInputs`). -/
def imgOne : Img := ⟨⟨0, 0, 1, 1⟩, fun _ _ => false⟩

/-- A 2×2 image with no black pixel. -/
def allWhite : Img := ⟨⟨0, 0, 2, 2⟩, fun _ _ => false⟩

/-! ## C3, C10 -/

/-- C3: the claim says that a `Train` call increments `OutputWeights[i][k]`
by `outputError[k] * hidden[i]` for every one of the `HiddenCount` hidden
units `i`.  In fact the update loop of `adjustOutputWeights` is bounded by
`len(n.HiddenOutputs) = NumOutputs`, so on any network built by
`NewNetwork(w, h)` (where `HiddenCount = w*h + NumOutputs`) the rows
`NumOutputs ≤ i < HiddenCount` of `OutputWeights` are left completely
unchanged by `Train`, whatever the activation, weights and sample. -/
theorem train_output_rows_beyond_eight_unchanged {α : Type} [Field α] (σ : α → α)
    (w h : ℕ) (rnd : ℕ → α) (img : Img) (cp : ℕ) (m : Network α)
    (hrun : Train σ (NewNetwork w h rnd) img cp = some m) :
    (NewNetwork w h rnd : Network α).HiddenCount = w * h + NumOutputs ∧
    (∀ i, NumOutputs ≤ i →
      m.OutputWeights.getD i [] = (NewNetwork w h rnd : Network α).OutputWeights.getD i []) := by
  refine ⟨rfl, ?_⟩
  obtain ⟨_, _, _, h4⟩ := tailInv_train (tailInv_newNetwork w h rnd) hrun
  exact h4

/-- Witness for C3's theorem: a concrete successful `Train` call on
`NewNetwork(1, 1)` (with `HiddenCount = 9`), whose `OutputWeights` row `8`
is untouched. -/
theorem train_output_rows_beyond_eight_unchanged_witness :
    ∃ m : Network ℚ, Train sigHalf (NewNetwork 1 1 rndHalf) imgOne 65 = some m ∧
      (NewNetwork 1 1 rndHalf : Network ℚ).HiddenCount = 1 * 1 + NumOutputs ∧
      (∀ i, NumOutputs ≤ i →
        m.OutputWeights.getD i [] = (NewNetwork 1 1 rndHalf : Network ℚ).OutputWeights.getD i []) := by
  obtain ⟨m, hm⟩ := Option.isSome_iff_exists.mp
    (show (Train sigHalf (NewNetwork 1 1 rndHalf) imgOne 65).isSome = true from rfl)
  exact ⟨m, hm, train_output_rows_beyond_eight_unchanged sigHalf 1 1 rndHalf imgOne 65 m hm⟩

/-- C10: for every network built by `NewNetwork(w, h)` and every sequence
of `Train` calls, the `HiddenErrors` entries at indices `≥ NumOutputs` stay
`0` (they are initialised to zero and `calculateHiddenErrors` writes only
indices below `len(HiddenOutputs) = NumOutputs`), so the `InputWeights`
columns `j ≥ NumOutputs` and the `OutputWeights` rows `i ≥ NumOutputs`
keep their initial random values. -/
theorem trainSeq_preserves_tail_columns {α : Type} [Field α] (σ : α → α) (w h : ℕ)
    (rnd : ℕ → α) (ps : List (Img × ℕ)) (m : Network α)
    (hrun : TrainSeq σ ps (NewNetwork w h rnd) = some m) :
    (∀ j, NumOutputs ≤ j → m.HiddenErrors.getD j 0 = 0) ∧
    (∀ i j, NumOutputs ≤ j →
      mat2 m.InputWeights i j = mat2 (NewNetwork w h rnd : Network α).InputWeights i j) ∧
    (∀ i, NumOutputs ≤ i →
      m.OutputWeights.getD i [] = (NewNetwork w h rnd : Network α).OutputWeights.getD i []) := by
  obtain ⟨_, h2, h3, h4⟩ := tailInv_trainSeq (tailInv_newNetwork w h rnd) hrun
  exact ⟨h2, h3, h4⟩

/-- Witness for C10's theorem: a concrete successful training sequence on
`NewNetwork(1, 1)`. -/
theorem trainSeq_preserves_tail_columns_witness :
    ∃ m : Network ℚ, TrainSeq sigHalf [(imgOne, 65)] (NewNetwork 1 1 rndHalf) = some m ∧
      (∀ j, NumOutputs ≤ j → m.HiddenErrors.getD j 0 = 0) ∧
      (∀ i j, NumOutputs ≤ j →
        mat2 m.InputWeights i j = mat2 (NewNetwork 1 1 rndHalf : Network ℚ).InputWeights i j) ∧
      (∀ i, NumOutputs ≤ i →
        m.OutputWeights.getD i [] = (NewNetwork 1 1 rndHalf : Network ℚ).OutputWeights.getD i []) := by
  obtain ⟨m, hm⟩ := Option.isSome_iff_exists.mp
    (show (TrainSeq sigHalf [(imgOne, 65)] (NewNetwork 1 1 rndHalf)).isSome = true from rfl)
  exact ⟨m, hm, trainSeq_preserves_tail_columns sigHalf 1 1 rndHalf [(imgOne, 65)] m hm⟩

/-! ## C1, C2, C4 -/

/-- C1: the claim says a saved-then-restored network produces the same
forward-pass outputs and `Recognize` result as the original on every image
the original accepts.  In fact `encoding/gob` does not serialise the
unexported `tileWidth`/`tileHeight`, so the restored network has tile
dimensions `0` and `assignInputs` hits its `log.Fatalf` branch on every
image the original accepts (here: `NewNetwork(1,1)` and a 1×1 image the
original accepts), aborting instead of reproducing the outputs — even
though every exported field, the weights included, does round-trip. -/
theorem restoreNetwork_drops_tile_dims :
    assignInputs (SaveThenRestore netOne) imgOne = none ∧
    (assignInputs netOne imgOne).isSome = true ∧
    (SaveThenRestore netOne).InputWeights = netOne.InputWeights ∧
    (SaveThenRestore netOne).OutputWeights = netOne.OutputWeights ∧
    (SaveThenRestore netOne).tileWidth = 0 ∧ netOne.tileWidth = 1 :=
  ⟨rfl, rfl, rfl, rfl, rfl, rfl⟩

/-- C2: the claim says `BoundingBox` on an all-background image returns
exactly the full image bounds.  In fact, for the 2×2 all-white image with
bounds `(0,0)-(2,2)`, every border value yields the rectangle
`(0,2)-(3,3)`: the `topY` scan falls back to `max.Y` (not `min.Y`), and
`rightX()+1`/`bottomY()+1` push the other corner one past the bounds. -/
theorem boundingBox_all_background :
    (∀ border : ℤ, BoundingBox allWhite border = ⟨0, 2, 3, 3⟩) ∧
    (⟨0, 2, 3, 3⟩ : GoRect) ≠ allWhite.bounds :=
  ⟨fun _ => rfl, by decide⟩

/-- C4: the claim says `HiddenOutputs` has length `HiddenCount = w*h +
NumOutputs` and that a forward pass computes `HiddenCount` hidden
activations.  In fact `NewNetwork` allocates `HiddenOutputs` with
`make([]float64, n.NumOutputs)`, so for `NewNetwork(1, 1)` the buffer has
length `NumOutputs = 8` while `HiddenCount = 9`, and
`calculateHiddenOutputs` (whose loop bound is `len(n.HiddenOutputs)`)
computes only `8` hidden activations. -/
theorem hiddenOutputs_allocated_with_numOutputs :
    netOne.HiddenOutputs.length = NumOutputs ∧
    netOne.HiddenCount = 9 ∧
    netOne.HiddenOutputs.length ≠ netOne.HiddenCount ∧
    (calculateHiddenOutputs sigHalf netOne).HiddenOutputs.length = NumOutputs :=
  ⟨rfl, rfl, by decide, rfl⟩

/-! ## C6, C7 -/

/-- Value bound for the digit expansion: `n` with accumulator `acc` yields
at least enough binary digits, i.e. `(n+1) * 2^|acc| ≤ 2^|digitsGo 2 f n acc|`
whenever the fuel `f` is at least `n`. -/
theorem digitsGo_two_lower_bound :
    ∀ (f n : ℕ) (acc : List ℕ), n ≤ f →
      (n + 1) * 2 ^ acc.length ≤ 2 ^ (digitsGo 2 f n acc).length := by
  intro f
  induction f with
  | zero =>
    intro n acc hn
    obtain rfl : n = 0 := Nat.le_zero.mp hn
    simp [digitsGo]
  | succ f ih =>
    intro n acc hn
    cases n with
    | zero => simp [digitsGo]
    | succ k =>
      show (k + 2) * 2 ^ acc.length ≤ 2 ^ (digitsGo 2 f ((k + 1) / 2) (((k + 1) % 2) :: acc)).length
      have h2 := ih ((k + 1) / 2) (((k + 1) % 2) :: acc) (by omega)
      simp only [List.length_cons] at h2
      have h3 : (k + 2) * 2 ^ acc.length ≤ ((k + 1) / 2 + 1) * 2 ^ (acc.length + 1) := by
        have hk : k + 2 ≤ ((k + 1) / 2 + 1) * 2 := by omega
        calc (k + 2) * 2 ^ acc.length ≤ (((k + 1) / 2 + 1) * 2) * 2 ^ acc.length :=
              Nat.mul_le_mul_right _ hk
          _ = ((k + 1) / 2 + 1) * 2 ^ (acc.length + 1) := by ring
      exact le_trans h3 h2

/-- C7 counterexample: the claim says `runeToArrayOfInts` silently returns
the low-order `NumOutputs` bits of a code point `≥ 2^NumOutputs`.  At code
point `257` it neither returns the low bits `00000001` nor anything else:
it panics (index out of range). -/
theorem runeToArrayOfInts_no_silent_truncation :
    runeToArrayOfInts NumOutputs 257 = none ∧
    runeToArrayOfInts NumOutputs 257 ≠ some [0, 0, 0, 0, 0, 0, 0, 1] :=
  ⟨by decide, by decide⟩

/-- C7 (amended): for every code point `≥ 2^NumOutputs`, the binary string
produced by `%0*b` is longer than `NumOutputs` (the Go verb zero-pads to a
minimum width and never truncates), so the copy loop of
`runeToArrayOfInts` indexes past the end of its `NumOutputs`-length result
slice and the call panics with an index out of range — it does not drop
high-order bits. -/
theorem runeToArrayOfInts_large_codepoint_panics (cp : ℕ) (h : 2 ^ NumOutputs ≤ cp) :
    runeToArrayOfInts NumOutputs cp = none := by
  have hcp : cp ≠ 0 := by
    simp only [NumOutputs] at h
    omega
  have hL : 8 < (natDigits 2 cp).length := by
    unfold natDigits
    rw [if_neg hcp]
    have hb := digitsGo_two_lower_bound cp cp [] le_rfl
    simp only [List.length_nil, pow_zero, mul_one] at hb
    by_contra hle
    push_neg at hle
    have h1 : 2 ^ (digitsGo 2 cp cp []).length ≤ 2 ^ 8 :=
      Nat.pow_le_pow_right (by norm_num) hle
    have h2 : cp + 1 ≤ 2 ^ 8 := le_trans hb h1
    simp only [NumOutputs] at h
    norm_num at h2
    omega
  simp only [runeToArrayOfInts]
  rw [if_neg]
  simp only [List.length_append, List.length_replicate, NumOutputs] at hL ⊢
  omega

/-- Witness for C7's amended theorem at the concrete code point `300`. -/
theorem runeToArrayOfInts_large_codepoint_panics_witness :
    2 ^ NumOutputs ≤ 300 ∧ runeToArrayOfInts NumOutputs 300 = none :=
  ⟨by decide, runeToArrayOfInts_large_codepoint_panics 300 (by decide)⟩

set_option maxRecDepth 40000 in
/-- C6: for every code point below `2^NumOutputs`, encoding with
`runeToArrayOfInts` and then decoding with the step used by `Recognize`
(concatenate the digits with `strconv.Itoa` and parse the result with
`strconv.ParseInt(·, 2, 16)`) returns exactly the original code point. -/
theorem rune_encode_decode_identity :
    ∀ cp : ℕ, cp < 2 ^ NumOutputs →
      (runeToArrayOfInts NumOutputs cp).map
        (fun ds => ParseIntBase2Bits16 (bitstring (ds.map (fun d => (d : ℤ))))) =
      some (some (cp : ℤ)) := by
  decide

/-- Witness for C6's theorem at the code point of `'A'`. -/
theorem rune_encode_decode_identity_witness :
    (65 : ℕ) < 2 ^ NumOutputs ∧
      (runeToArrayOfInts NumOutputs 65).map
        (fun ds => ParseIntBase2Bits16 (bitstring (ds.map (fun d => (d : ℤ))))) =
      some (some (65 : ℤ)) :=
  ⟨by decide, rune_encode_decode_identity 65 (by decide)⟩

/-! ## C8 -/

/-- Quantisation maps a value in `[0, 1]` to the bit `0` or `1`: below
`0.5` the `|f| < 0.5` guard returns `0`, otherwise `int(f + 0.5)`
truncates a value in `[1, 1.5]` to `1`. -/
theorem goRound_bit {v : ℚ} (h0 : 0 ≤ v) (h1 : v ≤ 1) : goRound v = 0 ∨ goRound v = 1 := by
  unfold goRound
  split
  · exact Or.inl rfl
  · right
    rename_i hge
    rw [abs_of_nonneg h0] at hge
    push_neg at hge
    unfold goCopysign goTrunc
    rw [if_neg (by linarith : ¬v < 0), abs_of_nonneg (by norm_num : (0:ℚ) ≤ 1/2),
      if_pos (by linarith : (0:ℚ) ≤ v + 1/2)]
    rw [Int.floor_eq_iff]
    constructor <;> push_cast <;> linarith

/-- The digit fold of `ParseIntBase2Bits16` on a string of `0`/`1`
characters always succeeds and is bounded by `(a+1) * 2^len`. -/
theorem parse_digits_bound :
    ∀ (cs : List Char), (∀ c ∈ cs, c = '0' ∨ c = '1') →
      ∀ a : ℤ, 0 ≤ a →
        ∃ v : ℤ, (cs.foldlM (fun (a : ℤ) d =>
            if d = '0' then some (2 * a) else if d = '1' then some (2 * a + 1) else none) a)
            = some v ∧ 0 ≤ v ∧ v < (a + 1) * 2 ^ cs.length := by
  intro cs
  induction cs with
  | nil =>
    intro _ a ha
    refine ⟨a, rfl, ha, ?_⟩
    simp only [List.length_nil, pow_zero, mul_one]
    omega
  | cons c t ih =>
    intro hc a ha
    have hct : ∀ x ∈ t, x = '0' ∨ x = '1' := fun x hx => hc x (List.mem_cons_of_mem _ hx)
    have h2L : (0:ℤ) < 2 ^ t.length := by positivity
    rcases hc c (List.mem_cons_self c t) with rfl | rfl
    · obtain ⟨v, hv, h0v, hbound⟩ := ih hct (2 * a) (by omega)
      refine ⟨v, ?_, h0v, ?_⟩
      · simpa [List.foldlM_cons] using hv
      · simp only [List.length_cons]
        calc v < (2 * a + 1) * 2 ^ t.length := hbound
          _ ≤ (a + 1) * 2 ^ (t.length + 1) := by rw [pow_succ]; nlinarith
    · obtain ⟨v, hv, h0v, hbound⟩ := ih hct (2 * a + 1) (by omega)
      refine ⟨v, ?_, h0v, ?_⟩
      · simpa [List.foldlM_cons] using hv
      · simp only [List.length_cons]
        calc v < (2 * a + 1 + 1) * 2 ^ t.length := hbound
          _ ≤ (a + 1) * 2 ^ (t.length + 1) := by rw [pow_succ]; nlinarith

theorem foldl_append_itoa (l : List ℤ) (init : List Char) :
    l.foldl (fun s v => s ++ Itoa v) init = init ++ l.foldr (fun v acc => Itoa v ++ acc) [] := by
  induction l generalizing init with
  | nil => simp
  | cons v t ih => simp [List.foldl_cons, List.foldr_cons, ih]

theorem bits_foldr_map (bs : List ℤ) (hb : ∀ b ∈ bs, b = 0 ∨ b = 1) :
    bs.foldr (fun v acc => Itoa v ++ acc) [] = bs.map (fun b => if b = 0 then '0' else '1') := by
  induction bs with
  | nil => rfl
  | cons b t ih =>
    have ht : ∀ x ∈ t, x = 0 ∨ x = 1 := fun x hx => hb x (List.mem_cons_of_mem _ hx)
    simp only [List.foldr_cons, List.map_cons, ih ht]
    rcases hb b (List.mem_cons_self b t) with rfl | rfl
    · simp [show Itoa 0 = ['0'] from by decide]
    · simp [show Itoa 1 = ['1'] from by decide]

/-- The quantise-concatenate-parse step of `Recognize` on any list of
eight activations in `[0, 1]` produces a bit string of eight `'0'`/`'1'`
characters, which `ParseInt` accepts, yielding a code in `[0, 2^8)`. -/
theorem recognizeOutputCode_bits (ov : List ℚ) (hlen : ov.length = 8)
    (hb : ∀ v ∈ ov, 0 ≤ v ∧ v ≤ 1) :
    ∃ k : ℤ, RecognizeOutputCode ov = some k ∧ 0 ≤ k ∧ k < 2 ^ 8 := by
  have hbit : ∀ b ∈ ov.map goRound, b = 0 ∨ b = 1 := by
    intro b hbmem
    obtain ⟨v, hv, rfl⟩ := List.mem_map.mp hbmem
    exact goRound_bit (hb v hv).1 (hb v hv).2
  have hchars : bitstring (ov.map goRound)
      = (ov.map goRound).map (fun b => if b = 0 then '0' else '1') := by
    unfold bitstring
    rw [foldl_append_itoa, bits_foldr_map _ hbit, List.nil_append]
  have hcs01 : ∀ c ∈ (ov.map goRound).map (fun b => if b = 0 then '0' else '1'),
      c = '0' ∨ c = '1' := by
    intro c hcmem
    obtain ⟨b, _, rfl⟩ := List.mem_map.mp hcmem
    split <;> simp
  have hlcs : ((ov.map goRound).map (fun b => if b = 0 then '0' else '1')).length = 8 := by
    simp [hlen]
  unfold RecognizeOutputCode
  rw [hchars]
  cases hcse : (ov.map goRound).map (fun b => if b = 0 then '0' else '1') with
  | nil => rw [hcse] at hlcs; simp at hlcs
  | cons c rest =>
    rw [hcse] at hcs01 hlcs
    have hc01 : c = '0' ∨ c = '1' := hcs01 c (List.mem_cons_self c rest)
    obtain ⟨v, hv, h0v, hvb⟩ := parse_digits_bound (c :: rest) hcs01 0 le_rfl
    have hnotsign : ¬(c = '-' ∨ c = '+') := by
      rcases hc01 with rfl | rfl <;> decide
    have hnotneg : ¬c = '-' := by rcases hc01 with rfl | rfl <;> decide
    unfold ParseIntBase2Bits16
    dsimp only
    rw [if_neg hnotsign]
    rw [if_neg (by simp : ¬(c :: rest).isEmpty = true)]
    rw [hv]
    rw [hlcs] at hvb
    norm_num at hvb
    dsimp only
    rw [if_neg hnotneg, if_neg (by omega : ¬(2:ℤ) ^ 15 ≤ v)]
    exact ⟨v, rfl, h0v, by norm_num; omega⟩

/-- C8: whenever `assignInputs` accepts the image (and the network has the
`NumOutputs`-sized output buffers `NewNetwork` allocates), `Recognize`
builds a bit string of exactly `NumOutputs` characters, each `'0'` or
`'1'`, because every `OutputValues` entry is an activation value in
`[0, 1]` and `round` maps it to `0` or `1`; `strconv.ParseInt` therefore
always succeeds — the fatal branch is unreachable — and the returned code
point lies in `[0, 2^NumOutputs)`.  The activation `σ` stands for
`sigmoid`, whose range is contained in `[0, 1]`. -/
theorem recognize_parse_always_succeeds (σ : ℚ → ℚ) (hσ : ∀ x, 0 ≤ σ x ∧ σ x ≤ 1)
    (n : Network ℚ) (img : Img) (h8 : n.NumOutputs = NumOutputs)
    (hlen : n.OutputValues.length = NumOutputs)
    (hin : (assignInputs n img).isSome = true) :
    ∃ k : ℤ, Recognize σ n img = some k ∧ 0 ≤ k ∧ k < 2 ^ NumOutputs := by
  obtain ⟨n1, hn1⟩ := Option.isSome_iff_exists.mp hin
  obtain ⟨e1, e2, e3, e4, e5, e6, e7, e8, e9, e10, e11⟩ := assignInputs_some hn1
  have hkey : (calculateFinalOutputs σ (calculateHiddenOutputs σ n1)).OutputValues.length = 8 ∧
      ∀ v ∈ (calculateFinalOutputs σ (calculateHiddenOutputs σ n1)).OutputValues,
        0 ≤ v ∧ v ≤ 1 := by
    simp only [calculateFinalOutputs, calculateHiddenOutputs]
    constructor
    · rw [length_writeN, e2, h8, e7, hlen]
      simp [NumOutputs]
    · intro v hv
      unfold writeN at hv
      rcases List.mem_append.mp hv with hm | hm
      · obtain ⟨i, _, rfl⟩ := List.mem_map.mp hm
        exact hσ _
      · rw [List.drop_eq_nil_of_le (by rw [e2, h8, e7, hlen])] at hm
        exact absurd hm (List.not_mem_nil v)
  obtain ⟨k, hk, h0k, hbk⟩ := recognizeOutputCode_bits _ hkey.1 hkey.2
  refine ⟨k, ?_, h0k, by simpa [NumOutputs] using hbk⟩
  unfold Recognize
  rw [hn1]
  exact hk

/-- Witness for C8's theorem: a concrete recognition run on
`NewNetwork(1, 1)` with a constant activation valued in `[0, 1]`. -/
theorem recognize_parse_always_succeeds_witness :
    ∃ k : ℤ, Recognize sigHalf netOne imgOne = some k ∧ 0 ≤ k ∧ k < 2 ^ NumOutputs :=
  recognize_parse_always_succeeds sigHalf
    (fun x => ⟨by norm_num [sigHalf], by norm_num [sigHalf]⟩) netOne imgOne rfl rfl rfl

/-! ## C5 -/

/-- A 10×10 tile whose black pixels fill columns 3–4: its bounding box is
`(3,0)-(5,10)`, spanning exactly 20% of the tile's width and 100% of its
height. -/
def tileTwenty : Img := ⟨⟨0, 0, 10, 10⟩, fun x _ => x == 3 || x == 4⟩

/-- The threshold `int(MinBoundingBoxPercent*float64(d))` of the crop gate
is the truncated integer `d / 4`. -/
theorem goTrunc_quarter (d : ℤ) (hd : 0 ≤ d) :
    goTrunc (MinBoundingBoxPercent * (d : ℚ)) = d / 4 := by
  unfold goTrunc MinBoundingBoxPercent
  rw [if_pos (by positivity)]
  have hq : (1/4 : ℚ) * (d : ℚ) = (d : ℚ) / ((4 : ℕ) : ℚ) := by push_cast; ring
  rw [hq, Rat.floor_intCast_div_natCast]
  norm_num

/-- C5 counterexample: the claim says a tile whose foreground bounding box
spans exactly 20% of the width is NOT cropped (the gate being `≥ 0.25` of
the width).  This 10×10 tile has a bounding box of width 2 — exactly 20%
of the tile's width, strictly less than 25% — yet the gate fires, because
`int(0.25*10) = 2` truncates the threshold down to `2 ≤ 2`. -/
theorem reduce_crops_twenty_percent_tile :
    ReduceCrops tileTwenty 0 ∧
    5 * (BoundingBox tileTwenty 0).dx = tileTwenty.bounds.dx ∧
    4 * (BoundingBox tileTwenty 0).dx < tileTwenty.bounds.dx := by
  refine ⟨?_, by decide, by decide⟩
  unfold ReduceCrops
  rw [goTrunc_quarter _ (by decide), goTrunc_quarter _ (by decide)]
  exact ⟨by decide, by decide⟩

/-- C5 (amended): `reduce` crops to the bounding box exactly when the
box's width and height reach the *truncated* thresholds
`int(0.25 * width)` and `int(0.25 * height)` — for widths not divisible by
4 this admits fractions below 25%, e.g. a box spanning exactly 20% of a
width-10 tile.  A box spanning at least 30% of both dimensions is always
cropped, as the claim says. -/
theorem reduce_crop_gate_truncated (img : Img) (border : ℤ)
    (hx : 0 ≤ img.bounds.dx) (hy : 0 ≤ img.bounds.dy) :
    (ReduceCrops img border ↔
      img.bounds.dx / 4 ≤ (BoundingBox img border).dx ∧
      img.bounds.dy / 4 ≤ (BoundingBox img border).dy) ∧
    ((3 * img.bounds.dx ≤ 10 * (BoundingBox img border).dx ∧
      3 * img.bounds.dy ≤ 10 * (BoundingBox img border).dy) → ReduceCrops img border) := by
  have h1 := goTrunc_quarter img.bounds.dx hx
  have h2 := goTrunc_quarter img.bounds.dy hy
  constructor
  · unfold ReduceCrops
    rw [h1, h2]
  · rintro ⟨ha, hb⟩
    unfold ReduceCrops
    rw [h1, h2]
    constructor <;> omega

/-- Witness for C5's amended theorem at the concrete 10×10 tile. -/
theorem reduce_crop_gate_truncated_witness :
    (ReduceCrops tileTwenty 0 ↔
      tileTwenty.bounds.dx / 4 ≤ (BoundingBox tileTwenty 0).dx ∧
      tileTwenty.bounds.dy / 4 ≤ (BoundingBox tileTwenty 0).dy) ∧
    ((3 * tileTwenty.bounds.dx ≤ 10 * (BoundingBox tileTwenty 0).dx ∧
      3 * tileTwenty.bounds.dy ≤ 10 * (BoundingBox tileTwenty 0).dy) →
      ReduceCrops tileTwenty 0) :=
  reduce_crop_gate_truncated tileTwenty 0 (by decide) (by decide)

/-! ## C9 -/

set_option maxRecDepth 40000 in
/-- For every destination dimension up to 21, the nearest-neighbour index
arithmetic of `Scale` is exact: `int(math.Floor((float64(x)/float64(N)) *
float64(N))) = x` (checked exhaustively against the binary64 model). -/
theorem scaleSrcIndex_id_small : ∀ N, N < 22 → ∀ x, x < N → scaleSrcIndex x N N = x := by
  decide

/-- A 22×22 source image whose colour at `(x, y)` encodes `x`. -/
def srcTwentyTwo : ImgC := ⟨⟨0, 0, 22, 22⟩, fun x _ => x.toNat⟩

/-- A 12×12 source image (the package's tile resolution). -/
def srcTwelve : ImgC := ⟨⟨0, 0, 12, 12⟩, fun x y => (x + 2 * y).toNat⟩

/-- C9 counterexample: the claim says `Scale(src, Rect(0,0,N,N))` is the
identity for every `N` because `floor((x/N)*N) = x` under `float64`
arithmetic.  For `N = 22`, `x = 15`: `15/22` rounds up, the product
`fl(15/22)*22` rounds to `14.999999999999998`, and the floor is `14` — the
destination pixel `(15, 0)` receives the colour of source pixel `(14, 0)`,
not its own. -/
theorem scale_same_size_not_identity :
    (Scale srcTwentyTwo 22 22).colorAt 15 0 = 14 ∧ srcTwentyTwo.colorAt 15 0 = 15 :=
  ⟨by decide, rfl⟩

/-- C9 (amended): `Scale(src, Rect(0,0,N,N))` on an `N×N` source is the
identity mapping for every `N ≤ 21` (each destination pixel receives the
same-index source pixel); the first failure of the underlying float64
round trip is at `N = 22`. -/
theorem scale_same_size_identity_small (src : ImgC) (N : ℕ) (hN : N ≤ 21)
    (hsb : src.bounds = ⟨0, 0, (N : ℤ), (N : ℤ)⟩) (x y : ℤ)
    (hx0 : 0 ≤ x) (hxN : x < (N : ℤ)) (hy0 : 0 ≤ y) (hyN : y < (N : ℤ)) :
    (Scale src N N).colorAt x y = src.colorAt x y := by
  unfold Scale
  dsimp only
  rw [if_pos ⟨hx0, hxN, hy0, hyN⟩, hsb]
  dsimp only [GoRect.dx, GoRect.dy]
  have hNt : (((N : ℤ)) - 0).toNat = N := by omega
  rw [hNt]
  rw [scaleSrcIndex_id_small N (by omega) x.toNat (by omega),
    scaleSrcIndex_id_small N (by omega) y.toNat (by omega)]
  congr 1 <;> omega

/-- Witness for C9's amended theorem: identity at `N = 12` (the tile
resolution), destination pixel `(7, 3)`. -/
theorem scale_same_size_identity_small_witness :
    (Scale srcTwelve 12 12).colorAt 7 3 = srcTwelve.colorAt 7 3 :=
  scale_same_size_identity_small srcTwelve 12 (by norm_num) rfl 7 3
    (by norm_num) (by norm_num) (by norm_num) (by norm_num)

end Gocarina
